import Mathlib

/-!
Verification development for the code-tardis tool (src/main.rs): a CLI that
scans the VS Code local-history store, parses per-file metadata records
(entries.json), correlates them to files under a working directory, and
lists or restores backups.

The embedding models:
  * filesystem paths as component lists (Rust PathBuf / Path semantics:
    starts_with, strip_prefix, parent, join are component-wise);
  * URLs as a scheme plus a path string (the url crate, restricted to the
    shapes the tool consumes);
  * JSON values as an inductive type (numbers restricted to integers; the
    records the tool consumes carry only integer literals);
  * the serde-derived deserializers for CodeHistoryInfo / CodeHistoryEntry
    as field-loops that set each field at most once, reject duplicates and
    missing fields, and skip unknown fields (serde default behaviour, no
    deny_unknown_fields attribute in the source);
  * the scan pipeline of main() (walkdir -> filter_map ok -> filter
    entries.json -> read/parse/correlate closure -> collect::<Result<_>>)
    over an abstract walk sequence and an abstract read function;
  * the Command::Restore arm as a per-record step plus a sequential run
    that records the copy actions performed before a first failure.
-/

namespace CodeTardis

/-- A filesystem path: absolute flag plus normalized components, mirroring
Rust Path components (separators collapsed, CurDir segments dropped). -/
structure RPath where
  absolute : Bool
  components : List String
  deriving DecidableEq, Repr

/-- Split a character list at separator characters. -/
def splitComponents (cs : List Char) : List (List Char) :=
  cs.foldr (fun c acc =>
    match acc with
    | [] => if c = '/' then [[]] else [[c]]
    | s :: rest => if c = '/' then [] :: s :: rest else (c :: s) :: rest) [[]]

/-- PathBuf::from on a path string: record absoluteness, keep the
non-empty, non-CurDir components. -/
def parsePath (s : String) : RPath :=
  ⟨(match s.toList with | '/' :: _ => true | _ => false),
   ((splitComponents s.toList).filter
      (fun l => (l != []) && (l != ['.']))).map (fun l => String.mk l)⟩

/-- PathBuf::join: an absolute right operand replaces the left entirely. -/
def rjoin (p q : RPath) : RPath :=
  if q.absolute then q else ⟨p.absolute, p.components ++ q.components⟩

/-- Path::starts_with: component-wise prefix (the root is compared via the
absolute flag). -/
def rstartsWith (p base : RPath) : Bool :=
  (p.absolute == base.absolute) && base.components.isPrefixOf p.components

/-- Path::strip_prefix: the component suffix as a relative path, or failure
when the base is not a component-wise prefix. -/
def stripPrefixOf (p base : RPath) : Option RPath :=
  if rstartsWith p base then some ⟨false, p.components.drop base.components.length⟩
  else none

/-- Path::parent: drop the last component; none at a root or empty path. -/
def parentOf (p : RPath) : Option RPath :=
  match p.components with
  | [] => none
  | _ :: _ => some ⟨p.absolute, p.components.dropLast⟩

/-- A parsed URL: scheme and path, the two accessors the tool uses
(url::Url::scheme and url::Url::path). -/
structure Url where
  scheme : String
  path : String
  deriving DecidableEq, Repr

/-- Locate the first colon: the scheme characters before it and the rest. -/
def findScheme : List Char → Option (List Char × List Char)
  | [] => none
  | ':' :: rest => some ([], rest)
  | c :: rest => (findScheme rest).map (fun p => (c :: p.1, p.2))

/-- RFC 3986 scheme shape: a letter followed by letters, digits, +, -, . -/
def validScheme : List Char → Bool
  | [] => false
  | c :: cs => c.isAlpha && cs.all (fun d => d.isAlphanum || d = '+' || d = '-' || d = '.')

/-- url::Url parsing, restricted to the shapes the tool consumes: for
scheme://authority/path the path starts at the first slash after the
authority (slash-slash-only URLs get path "/"); a scheme:rest URL keeps
rest as its path. -/
def parseUrl (s : String) : Option Url :=
  match findScheme s.toList with
  | none => none
  | some (sc, rest) =>
    if validScheme sc then
      match rest with
      | '/' :: '/' :: rest2 =>
        let p := rest2.dropWhile (fun c => c ≠ '/')
        some ⟨String.mk sc, if p = [] then "/" else String.mk p⟩
      | other => some ⟨String.mk sc, String.mk other⟩
    else none

/-- JSON values; numbers are modeled as integers (the metadata format only
carries integer literals). -/
inductive Json where
  | null
  | bool (b : Bool)
  | num (n : Int)
  | str (s : String)
  | arr (elems : List Json)
  | obj (fields : List (String × Json))

/-- One timestamped backup entry of a record (struct CodeHistoryEntry);
the timestamp is epoch milliseconds (chrono DateTime via ts_milliseconds). -/
structure CodeHistoryEntry where
  id : RPath
  timestamp : Int
  deriving DecidableEq, Repr

/-- One parsed metadata record (struct CodeHistoryInfo). -/
structure CodeHistoryInfo where
  version : Nat
  resource : Url
  entries : List CodeHistoryEntry
  deriving DecidableEq, Repr

/-- A record paired with its containing directory (struct CodeHistoryFile). -/
structure CodeHistoryFile where
  dir : RPath
  info : CodeHistoryInfo
  deriving DecidableEq, Repr

/-- serde u32 deserialization: a JSON integer in the u32 range. -/
def decodeU32 (j : Json) : Option Nat :=
  match j with
  | .num n => if 0 ≤ n ∧ n < 2 ^ 32 then some n.toNat else none
  | _ => none

/-- ts_milliseconds deserialization: a JSON integer in the i64 range,
kept as epoch milliseconds. -/
def decodeTs (j : Json) : Option Int :=
  match j with
  | .num n => if -(2 ^ 63) ≤ n ∧ n < 2 ^ 63 then some n else none
  | _ => none

/-- PathBuf deserialization: a JSON string read as a path. -/
def decodePathStr (j : Json) : Option RPath :=
  match j with
  | .str s => some (parsePath s)
  | _ => none

/-- url::Url deserialization: a JSON string that parses as a URL. -/
def decodeUrlJson (j : Json) : Option Url :=
  match j with
  | .str s => parseUrl s
  | _ => none

/-- serde-derived field loop for CodeHistoryEntry: fields set at most once,
duplicates and bad values fail, unknown fields skipped, all fields required. -/
def entryLoop : List (String × Json) → Option RPath → Option Int → Option CodeHistoryEntry
  | [], some i, some t => some ⟨i, t⟩
  | [], _, _ => none
  | (k, j) :: rest, i, t =>
    if k = "id" then
      match i, decodePathStr j with
      | none, some v => entryLoop rest (some v) t
      | _, _ => none
    else if k = "timestamp" then
      match t, decodeTs j with
      | none, some v => entryLoop rest i (some v)
      | _, _ => none
    else entryLoop rest i t

/-- Deserialize one CodeHistoryEntry from a JSON object. -/
def decodeEntry (j : Json) : Option CodeHistoryEntry :=
  match j with
  | .obj fields => entryLoop fields none none
  | _ => none

/-- Deserialize Vec of CodeHistoryEntry from a JSON array, preserving order. -/
def decodeEntries (j : Json) : Option (List CodeHistoryEntry) :=
  match j with
  | .arr l => l.mapM decodeEntry
  | _ => none

/-- serde-derived field loop for CodeHistoryInfo: version, resource and
entries each set at most once; duplicates, bad values and missing fields
fail; unknown fields skipped. -/
def infoLoop : List (String × Json) → Option Nat → Option Url →
    Option (List CodeHistoryEntry) → Option CodeHistoryInfo
  | [], some v, some r, some es => some ⟨v, r, es⟩
  | [], _, _, _ => none
  | (k, j) :: rest, v, r, es =>
    if k = "version" then
      match v, decodeU32 j with
      | none, some n => infoLoop rest (some n) r es
      | _, _ => none
    else if k = "resource" then
      match r, decodeUrlJson j with
      | none, some u => infoLoop rest v (some u) es
      | _, _ => none
    else if k = "entries" then
      match es, decodeEntries j with
      | none, some l => infoLoop rest v r (some l)
      | _, _ => none
    else infoLoop rest v r es

/-- serde_json::from_str for CodeHistoryInfo, at the JSON-value level. -/
def decodeInfo (j : Json) : Option CodeHistoryInfo :=
  match j with
  | .obj fields => infoLoop fields none none none
  | _ => none

/-- CodeHistoryFile::current_file: the path decoded from resource.path(). -/
def current_file (f : CodeHistoryFile) : RPath :=
  parsePath f.info.resource.path

/-- CodeHistoryFile::backup_files: (timestamp, dir.join(id)) per entry,
preserving entry order. -/
def backup_files (f : CodeHistoryFile) : List (Int × RPath) :=
  f.info.entries.map (fun e => (e.timestamp, rjoin f.dir e.id))

/-- CodeHistoryFile::is_scheme: compare the resource scheme. -/
def is_scheme (f : CodeHistoryFile) (s : String) : Bool :=
  f.info.resource.scheme == s

/-- The correlation filter of main(): local-file scheme and containment in
the canonical working directory. -/
def correlationKeep (currentDir : RPath) (f : CodeHistoryFile) : Bool :=
  is_scheme f "file" && rstartsWith (current_file f) currentDir

/-- One item yielded by the walkdir iterator: a directory entry (path and
whether it is a regular file), or a traversal error. -/
inductive WalkItem where
  | ok (path : RPath) (isFile : Bool)
  | err
  deriving DecidableEq, Repr

/-- What reading a discovered file yields as JSON source: text that is not
valid JSON, or a JSON value. -/
inductive FileContent where
  | malformed
  | json (v : Json)

/-- The error kinds the embedded pipeline can surface, mirroring the eyre
errors of main(). -/
inductive TError where
  | readError
  | parseError
  | noParent
  | notFound
  | pathError
  deriving DecidableEq, Repr

/-- The filter_map over walkdir results: keep Ok entries, drop errors. -/
def entryOk : WalkItem → Option (RPath × Bool)
  | .ok p b => some (p, b)
  | .err => none

/-- The filter: regular files whose path ends with entries.json. -/
def selectEntry (pr : RPath × Bool) : Bool :=
  pr.2 && decide (pr.1.components.getLast? = some "entries.json")

/-- The map closure of the scan pipeline: read the file, parse the record,
take the parent directory, and apply the correlation filter. The read
function returns none when read_to_string fails. -/
def processEntry (fs : RPath → Option FileContent) (currentDir : RPath)
    (p : RPath) : Except TError (Option CodeHistoryFile) :=
  match fs p with
  | none => .error .readError
  | some .malformed => .error .parseError
  | some (.json v) =>
    match decodeInfo v with
    | none => .error .parseError
    | some info =>
      match parentOf p with
      | none => .error .noParent
      | some d =>
        if correlationKeep currentDir ⟨d, info⟩ then .ok (some ⟨d, info⟩) else .ok none

/-- filter_map(transpose) followed by collect into Result of Vec: the first
error aborts, Ok(None) items are dropped, Ok(Some) items are kept in order. -/
def collectResults : List (Except TError (Option CodeHistoryFile)) →
    Except TError (List CodeHistoryFile)
  | [] => .ok []
  | .error e :: _ => .error e
  | .ok none :: rest => collectResults rest
  | .ok (some f) :: rest => (collectResults rest).map (fun l => f :: l)

/-- The whole scan pipeline of main(), over an abstract walk sequence and
read function. -/
def scanPipeline (fs : RPath → Option FileContent) (currentDir : RPath)
    (walk : List WalkItem) : Except TError (List CodeHistoryFile) :=
  collectResults (((walk.filterMap entryOk).filter selectEntry).map
    (fun pr => processEntry fs currentDir pr.1))

/-- One copy action the restore loop performs: source backup file, the
destination path handed to fs::copy, and the entry timestamp. -/
structure CopyAction where
  ts : Int
  src : RPath
  dst : RPath
  deriving DecidableEq, Repr

/-- One iteration of the Command::Restore loop: strip the working-directory
prefix from the current file, pick the last backup entry, and emit the copy
of that backup onto the stripped (relative) destination. -/
def restoreStep (currentDir : RPath) (f : CodeHistoryFile) : Except TError CopyAction :=
  match stripPrefixOf (current_file f) currentDir with
  | none => .error .pathError
  | some cur =>
    match (backup_files f).getLast? with
    | none => .error .notFound
    | some tb => .ok ⟨tb.1, tb.2, cur⟩

/-- The Command::Restore loop over the resolved records: the copy actions
performed before the first failing record, and the error that aborted the
run, if any. -/
def restoreRun (currentDir : RPath) : List CodeHistoryFile → List CopyAction × Option TError
  | [] => ([], none)
  | f :: rest =>
    match restoreStep currentDir f with
    | .error e => ([], some e)
    | .ok a =>
      let r := restoreRun currentDir rest
      (a :: r.1, r.2)

/-- The Command::Restore arm: the files argument is bound as a wildcard in
the source and never used. -/
def restoreCommand (_files : List RPath) (found : List CodeHistoryFile)
    (currentDir : RPath) : List CopyAction × Option TError :=
  restoreRun currentDir found

/-- Whether the content found at a path fails JSON decoding (malformed text
or a value the record deserializer rejects); an unreadable path does not
count as a decode failure. -/
def decodeFailsAt (fs : RPath → Option FileContent) (p : RPath) : Bool :=
  match fs p with
  | none => false
  | some .malformed => true
  | some (.json v) => (decodeInfo v).isNone

/-! ### Concrete fixtures used by witnesses and counterexamples -/

/-- JSON object of a well-formed backup entry. -/
def sampleEntryJson : Json :=
  Json.obj [("id", Json.str "e1"), ("timestamp", Json.num 1000)]

/-- Field list of a well-formed metadata record for file:///a/b/x.txt. -/
def sampleFields : List (String × Json) :=
  [("version", Json.num 1), ("resource", Json.str "file:///a/b/x.txt"),
   ("entries", Json.arr [sampleEntryJson])]

/-- The record value sampleFields decodes to. -/
def sampleInfo : CodeHistoryInfo :=
  ⟨1, ⟨"file", "/a/b/x.txt"⟩, [⟨⟨false, ["e1"]⟩, 1000⟩]⟩

/-- A resolved history file for sampleInfo stored under /backup/1. -/
def sampleFile : CodeHistoryFile :=
  ⟨⟨true, ["backup", "1"]⟩, sampleInfo⟩

/-- The canonical working directory /a/b used by the fixtures. -/
def workDir : RPath := ⟨true, ["a", "b"]⟩

/-- A metadata file path inside the backup store. -/
def entriesPath : RPath := ⟨true, ["h", "d1", "entries.json"]⟩

/-- A read function exposing sampleFields at entriesPath. -/
def sampleFs (p : RPath) : Option FileContent :=
  if p = entriesPath then some (FileContent.json (Json.obj sampleFields)) else none

/-- A read function on which every read fails. -/
def emptyFs (_p : RPath) : Option FileContent := none

/-- A read function whose file at entriesPath is not valid JSON. -/
def malformedFs (p : RPath) : Option FileContent :=
  if p = entriesPath then some FileContent.malformed else none

/-- The resolved record the sample scan produces. -/
def foundFile : CodeHistoryFile := ⟨⟨true, ["h", "d1"]⟩, sampleInfo⟩

/-- A record whose resource scheme is http. -/
def httpFile : CodeHistoryFile :=
  ⟨⟨true, ["h", "d2"]⟩, ⟨1, ⟨"http", "/a/b/y.txt"⟩, []⟩⟩

/-- A resolved record under the working directory with no backup entries. -/
def emptyEntriesFile : CodeHistoryFile :=
  ⟨⟨true, ["backup", "2"]⟩, ⟨1, ⟨"file", "/a/b/y.txt"⟩, []⟩⟩

/-- A field list whose version value is not an integer. -/
def badVersionFields : List (String × Json) :=
  ("version", Json.str "two") ::
    [("resource", Json.str "file:///a/b/x.txt"), ("entries", Json.arr [])]

/-! ### Helper lemmas -/

theorem collectResults_ok_mem {l : List (Except TError (Option CodeHistoryFile))}
    {res : List CodeHistoryFile} (h : collectResults l = .ok res)
    {f : CodeHistoryFile} (hf : f ∈ res) : Except.ok (some f) ∈ l := by
  induction l generalizing res with
  | nil =>
    simp only [collectResults, Except.ok.injEq] at h
    subst h
    simp at hf
  | cons x rest ih =>
    cases x with
    | error e => simp [collectResults] at h
    | ok o =>
      cases o with
      | none =>
        simp only [collectResults] at h
        exact List.mem_cons_of_mem _ (ih h hf)
      | some g =>
        simp only [collectResults] at h
        cases hc : collectResults rest with
        | error e => rw [hc] at h; simp [Except.map] at h
        | ok l2 =>
          rw [hc] at h
          simp only [Except.map, Except.ok.injEq] at h
          subst h
          rcases List.mem_cons.mp hf with h1 | h2
          · subst h1; exact List.mem_cons_self _ _
          · exact List.mem_cons_of_mem _ (ih hc h2)

theorem collectResults_ok_forall {l : List (Except TError (Option CodeHistoryFile))}
    {res : List CodeHistoryFile} (h : collectResults l = .ok res)
    {x : Except TError (Option CodeHistoryFile)} (hx : x ∈ l) :
    ∃ y, x = Except.ok y := by
  induction l generalizing res with
  | nil => simp at hx
  | cons a rest ih =>
    cases a with
    | error e => simp [collectResults] at h
    | ok o =>
      rcases List.mem_cons.mp hx with h1 | h2
      · exact ⟨o, h1⟩
      · cases o with
        | none =>
          simp only [collectResults] at h
          exact ih h h2
        | some g =>
          simp only [collectResults] at h
          cases hc : collectResults rest with
          | error e => rw [hc] at h; simp [Except.map] at h
          | ok l2 => exact ih hc h2

theorem processEntry_some_keep {fs : RPath → Option FileContent} {dir p : RPath}
    {f : CodeHistoryFile} (h : processEntry fs dir p = .ok (some f)) :
    correlationKeep dir f = true := by
  unfold processEntry at h
  cases hfs : fs p with
  | none => rw [hfs] at h; simp at h
  | some c =>
    rw [hfs] at h
    cases c with
    | malformed => simp at h
    | json v =>
      dsimp only at h
      cases hdi : decodeInfo v with
      | none => rw [hdi] at h; simp at h
      | some info =>
        rw [hdi] at h
        dsimp only at h
        cases hp : parentOf p with
        | none => rw [hp] at h; simp at h
        | some d =>
          rw [hp] at h
          dsimp only at h
          split at h
          · next hk =>
            simp only [Except.ok.injEq, Option.some.injEq] at h
            subst h
            exact hk
          · simp at h

theorem processEntry_ok_decode {fs : RPath → Option FileContent} {dir p : RPath}
    {y : Option CodeHistoryFile} (h : processEntry fs dir p = .ok y) :
    decodeFailsAt fs p = false := by
  unfold processEntry at h
  unfold decodeFailsAt
  cases hfs : fs p with
  | none => rfl
  | some c =>
    rw [hfs] at h
    cases c with
    | malformed => simp at h
    | json v =>
      dsimp only at h
      cases hdi : decodeInfo v with
      | none => rw [hdi] at h; simp at h
      | some info => simp [hdi]

theorem backup_files_getLast? (f : CodeHistoryFile) :
    (backup_files f).getLast? =
      f.info.entries.getLast?.map (fun e => (e.timestamp, rjoin f.dir e.id)) := by
  unfold backup_files
  exact List.getLast?_map _ _

theorem restoreStep_ok_of {dir : RPath} {f : CodeHistoryFile}
    (h1 : rstartsWith (current_file f) dir = true) (h2 : f.info.entries ≠ []) :
    ∃ a, restoreStep dir f = Except.ok a := by
  have hbf : backup_files f ≠ [] := by
    unfold backup_files
    cases hg : f.info.entries with
    | nil => exact absurd hg h2
    | cons a l => simp
  cases hl : (backup_files f).getLast? with
  | none => exact absurd (List.getLast?_eq_none_iff.mp hl) hbf
  | some tb =>
    refine ⟨⟨tb.1, tb.2, ⟨false, (current_file f).components.drop dir.components.length⟩⟩, ?_⟩
    unfold restoreStep stripPrefixOf
    simp [h1, hl]

/-! ### Claim theorems -/

/-- C1: the Restore arm strips the working-directory prefix before the
copy, so the destination handed to fs::copy is a relative path, not the
absolute original path decoded from resource.path(): for the record of
file:///a/b/x.txt under working directory /a/b the copy destination is the
relative path x.txt, which the operating system resolves against the
process's current working directory, while the original path is absolute. -/
theorem restore_copies_to_relative_dest :
    restoreCommand [] [sampleFile] workDir =
      ([⟨1000, ⟨true, ["backup", "1", "e1"]⟩, ⟨false, ["x.txt"]⟩⟩], none) ∧
    (⟨false, ["x.txt"]⟩ : RPath) ≠ current_file sampleFile ∧
    (current_file sampleFile).absolute = true := by
  refine ⟨rfl, by decide, rfl⟩

/-- C2 counterexample: a discovered entries.json whose content cannot be
read is not silently skipped: the whole scan aborts with a read error. -/
theorem scanner_read_failure_aborts :
    scanPipeline emptyFs workDir [WalkItem.ok entriesPath true] =
      Except.error TError.readError := rfl

/-- C2 amended: the scanner silently skips walkdir traversal errors (the
filter_map over walk results), but a failure to read the content of a
discovered metadata file aborts the invocation with a read error. -/
theorem walk_errors_skipped_read_errors_fatal :
    (∀ fs dir walk,
        scanPipeline fs dir (WalkItem.err :: walk) = scanPipeline fs dir walk)
    ∧ (∀ fs dir p post, p.components.getLast? = some "entries.json" → fs p = none →
        scanPipeline fs dir (WalkItem.ok p true :: post) =
          Except.error TError.readError) := by
  constructor
  · intro fs dir walk
    simp [scanPipeline, List.filterMap_cons, entryOk]
  · intro fs dir p post hsel hfs
    simp [scanPipeline, List.filterMap_cons, entryOk, List.filter_cons, selectEntry, hsel,
      processEntry, hfs, collectResults]

theorem walk_errors_skipped_read_errors_fatal_witness :
    scanPipeline emptyFs workDir [WalkItem.ok entriesPath true] =
        Except.error TError.readError
    ∧ scanPipeline emptyFs workDir [WalkItem.err] = scanPipeline emptyFs workDir [] :=
  ⟨walk_errors_skipped_read_errors_fatal.2 emptyFs workDir entriesPath [] (by decide) rfl,
   walk_errors_skipped_read_errors_fatal.1 emptyFs workDir []⟩

/-- C3: the files argument of Restore is ignored: the run is identical for
any two argument lists, and when every resolved record lies under the
working directory and has at least one entry, every record is restored. -/
theorem restore_ignores_files_argument :
    (∀ files1 files2 found dir,
        restoreCommand files1 found dir = restoreCommand files2 found dir)
    ∧ (∀ files found dir,
        (∀ f ∈ found, rstartsWith (current_file f) dir = true ∧ f.info.entries ≠ []) →
        (restoreCommand files found dir).1.length = found.length ∧
          (restoreCommand files found dir).2 = none) := by
  constructor
  · intro _ _ _ _
    rfl
  · intro files found dir
    simp only [restoreCommand]
    induction found with
    | nil => exact fun _ => ⟨rfl, rfl⟩
    | cons f rest ih =>
      intro h
      obtain ⟨h1, h2⟩ := h f (List.mem_cons_self f rest)
      obtain ⟨a, ha⟩ := restoreStep_ok_of h1 h2
      have hrest := ih (fun g hg => h g (List.mem_cons_of_mem f hg))
      simp only [restoreRun, ha]
      exact ⟨by simp [hrest.1], hrest.2⟩

theorem restore_ignores_files_argument_witness :
    restoreCommand [⟨false, ["z"]⟩] [sampleFile] workDir =
        restoreCommand [] [sampleFile] workDir
    ∧ (restoreCommand [] [sampleFile] workDir).1.length =
        ([sampleFile] : List CodeHistoryFile).length
    ∧ (restoreCommand [] [sampleFile] workDir).2 = none :=
  ⟨restore_ignores_files_argument.1 [⟨false, ["z"]⟩] [] [sampleFile] workDir,
   restore_ignores_files_argument.2 [] [sampleFile] workDir (by
     intro f hf
     rw [List.mem_singleton] at hf
     subst hf
     exact ⟨by decide, by decide⟩)⟩

/-- C6: the containment check is Path::starts_with, a component-wise prefix
test: under working directory /a/b the original paths /a/b/x.txt and /a/b
are included and /a/bc/x.txt is excluded, although /a/b is a raw string
prefix of /a/bc/x.txt. -/
theorem containment_is_component_prefix :
    correlationKeep workDir ⟨⟨true, ["s"]⟩, ⟨1, ⟨"file", "/a/b/x.txt"⟩, []⟩⟩ = true ∧
    correlationKeep workDir ⟨⟨true, ["s"]⟩, ⟨1, ⟨"file", "/a/b"⟩, []⟩⟩ = true ∧
    correlationKeep workDir ⟨⟨true, ["s"]⟩, ⟨1, ⟨"file", "/a/bc/x.txt"⟩, []⟩⟩ = false ∧
    List.isPrefixOf "/a/b".toList "/a/bc/x.txt".toList = true := by decide

/-- C7: a successful restore step selects exactly the last element of
backup_files, which corresponds to the last stored entry: its timestamp
and the containing directory joined with its id. -/
theorem restore_selects_last_entry :
    ∀ dir f a, restoreStep dir f = Except.ok a →
      (backup_files f).getLast? = some (a.ts, a.src) ∧
      ∃ e, f.info.entries.getLast? = some e ∧ a.ts = e.timestamp ∧
        a.src = rjoin f.dir e.id := by
  intro dir f a h
  unfold restoreStep at h
  cases hsp : stripPrefixOf (current_file f) dir with
  | none => rw [hsp] at h; simp at h
  | some cur =>
    rw [hsp] at h
    cases hl : (backup_files f).getLast? with
    | none => rw [hl] at h; simp at h
    | some tb =>
      rw [hl] at h
      simp only [Except.ok.injEq] at h
      subst h
      have h2 := backup_files_getLast? f
      rw [hl] at h2
      cases he : f.info.entries.getLast? with
      | none => rw [he] at h2; simp at h2
      | some e =>
        rw [he] at h2
        simp only [Option.map_some', Option.some.injEq] at h2
        subst h2
        exact ⟨by simp [hl], e, rfl, rfl, rfl⟩

theorem infoLoop_version_fixed :
    ∀ (fields : List (String × Json)) (n : Nat) (r : Option Url)
      (es : Option (List CodeHistoryEntry)) (info : CodeHistoryInfo),
      infoLoop fields (some n) r es = some info → info.version = n := by
  intro fields
  induction fields with
  | nil =>
    intro n r es info h
    cases r with
    | none => simp [infoLoop] at h
    | some u =>
      cases es with
      | none => simp [infoLoop] at h
      | some l =>
        simp only [infoLoop, Option.some.injEq] at h
        subst h
        rfl
  | cons kj rest ih =>
    intro n r es info h
    obtain ⟨k, j⟩ := kj
    by_cases hk1 : k = "version"
    · subst hk1
      simp [infoLoop] at h
    · by_cases hk2 : k = "resource"
      · subst hk2
        simp only [infoLoop, if_neg hk1, if_true, if_false, reduceIte] at h
        cases r with
        | some u => simp at h
        | none =>
          cases hd : decodeUrlJson j with
          | none => rw [hd] at h; simp at h
          | some u =>
            rw [hd] at h
            dsimp only at h
            exact ih n (some u) es info h
      · by_cases hk3 : k = "entries"
        · subst hk3
          simp only [infoLoop, if_neg hk1, if_neg hk2, if_true, if_false, reduceIte] at h
          cases es with
          | some l => simp at h
          | none =>
            cases hd : decodeEntries j with
            | none => rw [hd] at h; simp at h
            | some l =>
              rw [hd] at h
              dsimp only at h
              exact ih n r (some l) info h
        · simp only [infoLoop, if_neg hk1, if_neg hk2, if_neg hk3] at h
          exact ih n r es info h

theorem infoLoop_version_found :
    ∀ (fields : List (String × Json)) (r : Option Url)
      (es : Option (List CodeHistoryEntry)) (info : CodeHistoryInfo),
      infoLoop fields none r es = some info →
      ∃ j, ("version", j) ∈ fields ∧ decodeU32 j = some info.version := by
  intro fields
  induction fields with
  | nil =>
    intro r es info h
    cases r with
    | none => simp [infoLoop] at h
    | some u =>
      cases es with
      | none => simp [infoLoop] at h
      | some l => simp [infoLoop] at h
  | cons kj rest ih =>
    intro r es info h
    obtain ⟨k, j⟩ := kj
    by_cases hk1 : k = "version"
    · subst hk1
      simp only [infoLoop, if_true, if_false, reduceIte] at h
      cases hd : decodeU32 j with
      | none => rw [hd] at h; simp at h
      | some m =>
        rw [hd] at h
        dsimp only at h
        have hv := infoLoop_version_fixed rest m r es info h
        exact ⟨j, List.mem_cons_self _ _, by rw [hd, hv]⟩
    · by_cases hk2 : k = "resource"
      · subst hk2
        simp only [infoLoop, if_neg hk1, if_true, if_false, reduceIte] at h
        cases r with
        | some u => simp at h
        | none =>
          cases hd : decodeUrlJson j with
          | none => rw [hd] at h; simp at h
          | some u =>
            rw [hd] at h
            dsimp only at h
            obtain ⟨j2, hm, hd2⟩ := ih (some u) es info h
            exact ⟨j2, List.mem_cons_of_mem _ hm, hd2⟩
      · by_cases hk3 : k = "entries"
        · subst hk3
          simp only [infoLoop, if_neg hk1, if_neg hk2, if_true, if_false, reduceIte] at h
          cases es with
          | some l => simp at h
          | none =>
            cases hd : decodeEntries j with
            | none => rw [hd] at h; simp at h
            | some l =>
              rw [hd] at h
              dsimp only at h
              obtain ⟨j2, hm, hd2⟩ := ih r (some l) info h
              exact ⟨j2, List.mem_cons_of_mem _ hm, hd2⟩
        · simp only [infoLoop, if_neg hk1, if_neg hk2, if_neg hk3] at h
          obtain ⟨j2, hm, hd2⟩ := ih r es info h
          exact ⟨j2, List.mem_cons_of_mem _ hm, hd2⟩

theorem infoLoop_bad_version :
    ∀ (fields : List (String × Json)) (jbad : Json), ("version", jbad) ∈ fields →
      decodeU32 jbad = none →
      ∀ v r es, infoLoop fields v r es = none := by
  intro fields
  induction fields with
  | nil =>
    intro jbad hmem
    simp at hmem
  | cons kj rest ih =>
    intro jbad hmem hbad v r es
    obtain ⟨k, j⟩ := kj
    rcases List.mem_cons.mp hmem with heq | htl
    · injection heq with hk hj
      subst hk
      subst hj
      simp only [infoLoop, if_true, if_false, reduceIte]
      cases v with
      | none => rw [hbad]
      | some m => cases decodeU32 jbad <;> rfl
    · by_cases hk1 : k = "version"
      · subst hk1
        simp only [infoLoop, if_true, if_false, reduceIte]
        cases v with
        | some m => cases decodeU32 j <;> rfl
        | none =>
          cases hd : decodeU32 j with
          | none => rfl
          | some m =>
            dsimp only
            exact ih jbad htl hbad (some m) r es
      · by_cases hk2 : k = "resource"
        · subst hk2
          simp only [infoLoop, if_neg hk1, if_true, if_false, reduceIte]
          cases r with
          | some u => cases decodeUrlJson j <;> rfl
          | none =>
            cases hd : decodeUrlJson j with
            | none => rfl
            | some u =>
              dsimp only
              exact ih jbad htl hbad v (some u) es
        · by_cases hk3 : k = "entries"
          · subst hk3
            simp only [infoLoop, if_neg hk1, if_neg hk2, if_true, if_false, reduceIte]
            cases es with
            | some l => cases decodeEntries j <;> rfl
            | none =>
              cases hd : decodeEntries j with
              | none => rfl
              | some l =>
                dsimp only
                exact ih jbad htl hbad v r (some l)
          · simp only [infoLoop, if_neg hk1, if_neg hk2, if_neg hk3]
            exact ih jbad htl hbad v r es

theorem decodeU32_eq_some {j : Json} {m : Nat} (h : decodeU32 j = some m) :
    ∃ n : Int, j = Json.num n ∧ 0 ≤ n ∧ n < 2 ^ 32 ∧ m = n.toNat := by
  cases j with
  | num n =>
    simp only [decodeU32] at h
    split at h
    · next hc =>
      simp only [Option.some.injEq] at h
      exact ⟨n, rfl, hc.1, hc.2, h.symm⟩
    · simp at h
  | null => simp [decodeU32] at h
  | bool b => simp [decodeU32] at h
  | str s => simp [decodeU32] at h
  | arr l => simp [decodeU32] at h
  | obj l => simp [decodeU32] at h

theorem entryLoop_unknown_skip :
    ∀ (pre post : List (String × Json)) (k : String) (j : Json),
      k ≠ "id" → k ≠ "timestamp" →
      ∀ i t, entryLoop (pre ++ (k, j) :: post) i t = entryLoop (pre ++ post) i t := by
  intro pre
  induction pre with
  | nil =>
    intro post k j h1 h2 i t
    simp [entryLoop, h1, h2]
  | cons kj pre2 ih =>
    intro post k j h1 h2 i t
    obtain ⟨k2, j2⟩ := kj
    simp only [List.cons_append, entryLoop]
    by_cases hk1 : k2 = "id"
    · rw [if_pos hk1, if_pos hk1]
      cases i with
      | some v => cases decodePathStr j2 <;> rfl
      | none =>
        cases hd : decodePathStr j2 with
        | none => rfl
        | some v =>
          dsimp only
          exact ih post k j h1 h2 (some v) t
    · rw [if_neg hk1, if_neg hk1]
      by_cases hk2 : k2 = "timestamp"
      · rw [if_pos hk2, if_pos hk2]
        cases t with
        | some v => cases decodeTs j2 <;> rfl
        | none =>
          cases hd : decodeTs j2 with
          | none => rfl
          | some v =>
            dsimp only
            exact ih post k j h1 h2 i (some v)
      · rw [if_neg hk2, if_neg hk2]
        exact ih post k j h1 h2 i t

theorem infoLoop_unknown_skip :
    ∀ (pre post : List (String × Json)) (k : String) (j : Json),
      k ≠ "version" → k ≠ "resource" → k ≠ "entries" →
      ∀ v r es, infoLoop (pre ++ (k, j) :: post) v r es =
        infoLoop (pre ++ post) v r es := by
  intro pre
  induction pre with
  | nil =>
    intro post k j h1 h2 h3 v r es
    simp [infoLoop, h1, h2, h3]
  | cons kj pre2 ih =>
    intro post k j h1 h2 h3 v r es
    obtain ⟨k2, j2⟩ := kj
    simp only [List.cons_append, infoLoop]
    by_cases hk1 : k2 = "version"
    · rw [if_pos hk1, if_pos hk1]
      cases v with
      | some n => cases decodeU32 j2 <;> rfl
      | none =>
        cases hd : decodeU32 j2 with
        | none => rfl
        | some n =>
          dsimp only
          exact ih post k j h1 h2 h3 (some n) r es
    · rw [if_neg hk1, if_neg hk1]
      by_cases hk2 : k2 = "resource"
      · rw [if_pos hk2, if_pos hk2]
        cases r with
        | some u => cases decodeUrlJson j2 <;> rfl
        | none =>
          cases hd : decodeUrlJson j2 with
          | none => rfl
          | some u =>
            dsimp only
            exact ih post k j h1 h2 h3 v (some u) es
      · rw [if_neg hk2, if_neg hk2]
        by_cases hk3 : k2 = "entries"
        · rw [if_pos hk3, if_pos hk3]
          cases es with
          | some l => cases decodeEntries j2 <;> rfl
          | none =>
            cases hd : decodeEntries j2 with
            | none => rfl
            | some l =>
              dsimp only
              exact ih post k j h1 h2 h3 v r (some l)
        · rw [if_neg hk3, if_neg hk3]
          exact ih post k j h1 h2 h3 v r es

/-- C4: deserializing a record succeeds only with a version field holding
an integer the u32 decoder recognizes (an integer in the u32 range, the
only guard the derived deserializer applies), and an object whose version
value the u32 decoder rejects always fails to decode. -/
theorem version_must_be_u32 :
    (∀ fields info, decodeInfo (Json.obj fields) = some info →
       ∃ n : Int, ("version", Json.num n) ∈ fields ∧ 0 ≤ n ∧ n < 2 ^ 32 ∧
         info.version = n.toNat)
    ∧ (∀ fields j, ("version", j) ∈ fields → decodeU32 j = none →
       decodeInfo (Json.obj fields) = none) := by
  constructor
  · intro fields info h
    obtain ⟨j, hmem, hdec⟩ := infoLoop_version_found fields none none info h
    obtain ⟨n, hj, h0, h32, hm⟩ := decodeU32_eq_some hdec
    subst hj
    exact ⟨n, hmem, h0, h32, hm⟩
  · intro fields j hmem hbad
    exact infoLoop_bad_version fields j hmem hbad none none none

theorem version_must_be_u32_witness :
    (∃ n : Int, ("version", Json.num n) ∈ sampleFields ∧ 0 ≤ n ∧ n < 2 ^ 32 ∧
       sampleInfo.version = n.toNat)
    ∧ decodeInfo (Json.obj badVersionFields) = none :=
  ⟨version_must_be_u32.1 sampleFields sampleInfo rfl,
   version_must_be_u32.2 badVersionFields (Json.str "two") (List.mem_cons_self _ _) rfl⟩

/-- C5: every record in the correlation output has resource scheme file,
and a record with any other scheme is excluded by the correlation filter
regardless of its path. -/
theorem correlation_scheme_file :
    (∀ fs dir walk res f, scanPipeline fs dir walk = Except.ok res → f ∈ res →
       f.info.resource.scheme = "file")
    ∧ (∀ dir f, f.info.resource.scheme ≠ "file" → correlationKeep dir f = false) := by
  constructor
  · intro fs dir walk res f h hf
    unfold scanPipeline at h
    have hmem := collectResults_ok_mem h hf
    obtain ⟨pr, hpr, hpe⟩ := List.mem_map.mp hmem
    have hkeep := processEntry_some_keep hpe
    simp only [correlationKeep, Bool.and_eq_true] at hkeep
    simpa [is_scheme] using hkeep.1
  · intro dir f hs
    unfold correlationKeep is_scheme
    simp [hs]

theorem correlation_scheme_file_witness :
    foundFile.info.resource.scheme = "file" ∧
    correlationKeep workDir httpFile = false :=
  ⟨correlation_scheme_file.1 sampleFs workDir [WalkItem.err, WalkItem.ok entriesPath true]
      [foundFile] foundFile rfl (List.mem_singleton.mpr rfl),
   correlation_scheme_file.2 workDir httpFile (by decide)⟩

/-- C8: on resolved records that passed the containment filter, the restore
run aborts with the NotFound-class error exactly when some record has zero
backup entries, and it aborts at the first such record, after performing
exactly one copy per preceding record. -/
theorem restore_notfound_iff_empty_entries :
    ∀ dir found, (∀ f ∈ found, rstartsWith (current_file f) dir = true) →
      (((restoreRun dir found).2 = some TError.notFound) ↔
        ∃ f ∈ found, f.info.entries = [])
      ∧ (∀ pre f post, found = pre ++ f :: post → f.info.entries = [] →
          (∀ g ∈ pre, g.info.entries ≠ []) →
          (restoreRun dir found).1.length = pre.length) := by
  intro dir found
  induction found with
  | nil =>
    intro _
    constructor
    · simp [restoreRun]
    · intro pre f post habs
      exact absurd habs (by simp)
  | cons f0 rest ih =>
    intro h
    have h0 := h f0 (List.mem_cons_self f0 rest)
    have hrest := ih (fun g hg => h g (List.mem_cons_of_mem f0 hg))
    by_cases hemp : f0.info.entries = []
    · have hbfnil : backup_files f0 = [] := by
        unfold backup_files
        rw [hemp]
        rfl
      have hstep : restoreStep dir f0 = Except.error TError.notFound := by
        unfold restoreStep stripPrefixOf
        simp [h0, hbfnil]
      constructor
      · constructor
        · intro _
          exact ⟨f0, List.mem_cons_self _ _, hemp⟩
        · intro _
          simp [restoreRun, hstep]
      · intro pre f post hdec hfe hpre
        cases pre with
        | nil => simp [restoreRun, hstep]
        | cons p pre2 =>
          rw [List.cons_append] at hdec
          injection hdec with hp1 hp2
          subst hp1
          exact absurd hemp (hpre f0 (List.mem_cons_self _ _))
    · obtain ⟨a, ha⟩ := restoreStep_ok_of h0 hemp
      constructor
      · constructor
        · intro hl
          simp only [restoreRun, ha] at hl
          obtain ⟨g, hg, hge⟩ := hrest.1.mp hl
          exact ⟨g, List.mem_cons_of_mem _ hg, hge⟩
        · rintro ⟨g, hg, hge⟩
          rcases List.mem_cons.mp hg with hgf | hg2
          · exact absurd (hgf ▸ hge) hemp
          · simp only [restoreRun, ha]
            exact hrest.1.mpr ⟨g, hg2, hge⟩
      · intro pre f post hdec hfe hpre
        cases pre with
        | nil =>
          simp only [List.nil_append] at hdec
          injection hdec with hp1 hp2
          exact absurd (hp1 ▸ hfe) hemp
        | cons p pre2 =>
          rw [List.cons_append] at hdec
          injection hdec with hp1 hp2
          subst hp1
          have hlen := hrest.2 pre2 f post hp2 hfe
            (fun g hg => hpre g (List.mem_cons_of_mem _ hg))
          simp only [restoreRun, ha, List.length_cons, hlen]

theorem restore_notfound_iff_empty_entries_witness :
    (restoreRun workDir [emptyEntriesFile]).2 = some TError.notFound :=
  (restore_notfound_iff_empty_entries workDir [emptyEntriesFile] (by
      intro f hf
      rw [List.mem_singleton] at hf
      subst hf
      decide)).1.mpr ⟨emptyEntriesFile, List.mem_cons_self _ _, rfl⟩

/-- C9: a discovered metadata file whose content fails to decode aborts the
scan with a parse error when reached, and a scan that returns a result set
contains no discovered metadata file that failed to decode: there is never
a partial result. -/
theorem decode_failure_aborts :
    (∀ fs dir p post, selectEntry (p, true) = true → decodeFailsAt fs p = true →
       scanPipeline fs dir (WalkItem.ok p true :: post) =
         Except.error TError.parseError)
    ∧ (∀ fs dir walk res p b, scanPipeline fs dir walk = Except.ok res →
       WalkItem.ok p b ∈ walk → selectEntry (p, b) = true →
       decodeFailsAt fs p = false) := by
  constructor
  · intro fs dir p post hsel hfail
    have hpe : processEntry fs dir p = Except.error TError.parseError := by
      unfold decodeFailsAt at hfail
      unfold processEntry
      cases hfs : fs p with
      | none => rw [hfs] at hfail; simp at hfail
      | some c =>
        rw [hfs] at hfail
        cases c with
        | malformed => rfl
        | json v =>
          dsimp only at hfail ⊢
          rw [Option.isNone_iff_eq_none] at hfail
          rw [hfail]
    simp [scanPipeline, List.filterMap_cons, entryOk, List.filter_cons, hsel, hpe,
      collectResults]
  · intro fs dir walk res p b h hmem hsel
    unfold scanPipeline at h
    have hm1 : (p, b) ∈ walk.filterMap entryOk :=
      List.mem_filterMap.mpr ⟨WalkItem.ok p b, hmem, rfl⟩
    have hm2 : (p, b) ∈ (walk.filterMap entryOk).filter selectEntry :=
      List.mem_filter.mpr ⟨hm1, hsel⟩
    have hm3 : processEntry fs dir p ∈
        ((walk.filterMap entryOk).filter selectEntry).map
          (fun pr => processEntry fs dir pr.1) :=
      List.mem_map.mpr ⟨(p, b), hm2, rfl⟩
    obtain ⟨y, hy⟩ := collectResults_ok_forall h hm3
    exact processEntry_ok_decode hy

theorem decode_failure_aborts_witness :
    scanPipeline malformedFs workDir [WalkItem.ok entriesPath true] =
      Except.error TError.parseError :=
  decode_failure_aborts.1 malformedFs workDir entriesPath [] (by decide) rfl

/-- C10: the derived deserializers ignore unknown fields: inserting a field
with an unrecognized key anywhere in a record object, or in an entry
object, never changes the decode result. -/
theorem unknown_fields_ignored :
    (∀ pre post k j, k ≠ "version" → k ≠ "resource" → k ≠ "entries" →
       decodeInfo (Json.obj (pre ++ (k, j) :: post)) =
         decodeInfo (Json.obj (pre ++ post)))
    ∧ (∀ pre post k j, k ≠ "id" → k ≠ "timestamp" →
       decodeEntry (Json.obj (pre ++ (k, j) :: post)) =
         decodeEntry (Json.obj (pre ++ post))) := by
  constructor
  · intro pre post k j h1 h2 h3
    exact infoLoop_unknown_skip pre post k j h1 h2 h3 none none none
  · intro pre post k j h1 h2
    exact entryLoop_unknown_skip pre post k j h1 h2 none none

theorem unknown_fields_ignored_witness :
    decodeInfo (Json.obj (sampleFields ++ ("color", Json.str "blue") :: [])) =
        decodeInfo (Json.obj (sampleFields ++ [])) ∧
    decodeInfo (Json.obj (sampleFields ++ [])) = some sampleInfo :=
  ⟨unknown_fields_ignored.1 sampleFields [] "color" (Json.str "blue")
      (by decide) (by decide) (by decide), rfl⟩

theorem restore_selects_last_entry_witness :
    (backup_files sampleFile).getLast? =
        some (1000, ⟨true, ["backup", "1", "e1"]⟩) ∧
    ∃ e, sampleFile.info.entries.getLast? = some e ∧ (1000 : Int) = e.timestamp ∧
      (⟨true, ["backup", "1", "e1"]⟩ : RPath) = rjoin sampleFile.dir e.id :=
  restore_selects_last_entry workDir sampleFile
    ⟨1000, ⟨true, ["backup", "1", "e1"]⟩, ⟨false, ["x.txt"]⟩⟩ rfl

end CodeTardis
